import Mathlib

/-!
Shallow embedding of the Go package `listeners` (file `listeners.go`):
a generic listener manager with ordered registration, removal by ID, and
two invocation phases (Pre / Post) with result aggregation.

Modelling conventions:
* The Go type aliases `PluginResult = int32`, `HookMode = int32` and
  `ListenerID = int32` are modelled as `Int`; the only arithmetic the
  source performs on them is the increment `cm.id++`, which is modelled
  with an explicit 32-bit signed wraparound (`toInt32`).
* The Go map `map[ListenerID]listenerHolder[T]` is modelled as an
  association list with overwrite-on-insert; the source never iterates
  the map, so only lookup/insert/delete semantics matter.  A lookup of a
  missing key yields the Go zero value `{zero value of T, 0}`, which is
  modelled with `Inhabited.default` and mode `0` (= `Pre`).
* `Remove` calls `slices.DeleteFunc(cm.order, func(i ListenerID) bool {
  return cm.order[i] == index })`.  The closure reads `cm.order`, which
  aliases the very slice `DeleteFunc` is compacting in place, and it
  indexes that slice with the *element* `i`.  The model reproduces the
  exact Go `slices.DeleteFunc` algorithm (an `IndexFunc` scan followed
  by the in-place compaction loop), threading the mutated sequence into
  every predicate call.  An out-of-range index in the predicate is a Go
  runtime panic; panics are modelled as `Option.none`, making `Remove`
  a partial operation.
* `InvokePre` / `InvokePost` are instrumented to also return the trace
  of order-sequence entries whose callback was invoked, in invocation
  order; this is the observable needed to state the visit-order claims.
-/

namespace Listeners

/-- PluginResult represents the result of a callback execution (Go: `int32`). -/
abbrev PluginResult := Int

/-- Continue execution without any changes. -/
def Continue : PluginResult := 0

/-- State or behavior has been modified. -/
def Changed : PluginResult := 1

/-- Event has been handled, no further actions are required. -/
def Handled : PluginResult := 2

/-- Stop processing, no further steps are executed. -/
def Stop : PluginResult := 3

/-- HookMode (Go: `int32`). -/
abbrev HookMode := Int

/-- Pre hook mode. -/
def Pre : HookMode := 0

/-- Post hook mode. -/
def Post : HookMode := 1

/-- ListenerID is a unique identifier of a registered listener (Go: `int32`). -/
abbrev ListenerID := Int

/-- Signed 32-bit wraparound, used to model the Go `int32` increment `cm.id++`. -/
def toInt32 (n : Int) : Int := (n + 2 ^ 31) % 2 ^ 32 - 2 ^ 31

/-- A stored listener: the callback together with its hook mode. -/
structure listenerHolder (T : Type) where
  callback : T
  mode : HookMode
deriving DecidableEq

/-- The listener map, Go `map[ListenerID]listenerHolder[T]`, as an association list. -/
abbrev ListenerMap (T : Type) := List (ListenerID × listenerHolder T)

/-- Go map insertion `cm.listeners[id] = holder` (overwrites an existing key). -/
def mapInsert {T : Type} (m : ListenerMap T) (k : ListenerID) (v : listenerHolder T) :
    ListenerMap T :=
  (k, v) :: m.filter (fun p => p.1 != k)

/-- Go map deletion `delete(cm.listeners, index)`. -/
def mapDelete {T : Type} (m : ListenerMap T) (k : ListenerID) : ListenerMap T :=
  m.filter (fun p => p.1 != k)

/-- Go map read `cm.listeners[idx]`: a missing key yields the zero value,
whose mode field is `0` (= `Pre`). -/
def mapGet {T : Type} [Inhabited T] (m : ListenerMap T) (k : ListenerID) : listenerHolder T :=
  (List.lookup k m).getD ⟨default, 0⟩

/-- ListenerManager manages a set of listeners with execution order and
supports pre- and post-invocation phases.  (The `sync.RWMutex` has no
counterpart in this sequential model.) -/
structure ListenerManager (T : Type) where
  listeners : ListenerMap T
  order : List ListenerID
  id : ListenerID
deriving DecidableEq

/-- NewListener creates and initializes a new ListenerManager instance. -/
def NewListener (T : Type) : ListenerManager T :=
  { listeners := [], order := [], id := 0 }

/-- Add registers a new listener with the specified hook mode and returns
the allocated ListenerID together with the updated manager.  The counter
increment `cm.id++` wraps around like the Go `int32` it is. -/
def Add {T : Type} (cm : ListenerManager T) (callback : T) (mode : HookMode) :
    ListenerID × ListenerManager T :=
  let id := cm.id
  (id,
    { listeners := mapInsert cm.listeners id ⟨callback, mode⟩
      order := cm.order ++ [id]
      id := toInt32 (cm.id + 1) })

/-- The predicate of the closure passed to `slices.DeleteFunc` inside `Remove`:
`func(i ListenerID) bool { return cm.order[i] == index }`.  `A` is the current
content of the aliased `cm.order` slice; reading it at an out-of-range index is
a Go panic, modelled as `none`. -/
def delPred (A : List ListenerID) (x : ListenerID) (e : ListenerID) : Option Bool :=
  if h : 0 ≤ e ∧ e.toNat < A.length then
    some (decide (A.get ⟨e.toNat, h.2⟩ = x))
  else
    none

/-- The `slices.IndexFunc` scan at the start of `slices.DeleteFunc`, iterated
over the list of remaining scan positions (the slice length never changes, so
the positions are fixed upfront): the first position whose element satisfies
the predicate (`some (some p)`), `some none` when no element does, `none` when
a predicate call panics.  A position beyond the slice cannot occur on the
positions actually passed in. -/
def indexFuncAux (A : List ListenerID) (x : ListenerID) : List Nat → Option (Option Nat)
  | [] => some none
  | p :: ps =>
    match A.get? p with
    | none => some none
    | some e =>
      match delPred A x e with
      | none => none
      | some true => some (some p)
      | some false => indexFuncAux A x ps

/-- The in-place compaction loop of `slices.DeleteFunc`, iterated over the list
of remaining scan positions `j`; `i` is the write index and `A` the current
content of the slice, which is exactly what the aliasing predicate closure
observes.  Returns the final write index and slice content, or `none` when a
predicate call panics. -/
def deleteLoop (x : ListenerID) : List Nat → Nat → List ListenerID →
    Option (Nat × List ListenerID)
  | [], i, A => some (i, A)
  | j :: js, i, A =>
    match A.get? j with
    | none => some (i, A)
    | some v =>
      match delPred A x v with
      | none => none
      | some true => deleteLoop x js i A
      | some false => deleteLoop x js (i + 1) (A.set i v)

/-- `cm.order = slices.DeleteFunc(cm.order, func(i) { return cm.order[i] == index })`:
the new content of the order sequence, or `none` when the call panics.  The
scan positions are `0, …, len-1` for the `IndexFunc` pass and `p+1, …, len-1`
for the compaction loop, as in the Go source. -/
def removeOrder (A : List ListenerID) (x : ListenerID) : Option (List ListenerID) :=
  match indexFuncAux A x (List.range A.length) with
  | none => none
  | some none => some A
  | some (some p) =>
    match deleteLoop x (List.range' (p + 1) (A.length - (p + 1))) p A with
    | none => none
    | some (i2, B) => some (B.take i2)

/-- Remove unregisters a listener by its ListenerID: it deletes the map entry
and then rebuilds the order sequence with `slices.DeleteFunc`.  A panic inside
the `DeleteFunc` predicate is modelled as `none`. -/
def Remove {T : Type} (cm : ListenerManager T) (index : ListenerID) :
    Option (ListenerManager T) :=
  match removeOrder cm.order index with
  | none => none
  | some B => some { cm with listeners := mapDelete cm.listeners index, order := B }

/-- The loop of `InvokePre`, instrumented with the trace of order entries whose
callback was invoked.  Mirrors the source: skip entries whose mode is not `Pre`,
raise `finalResult` to any larger result, and break once it reaches `Handled`. -/
def invokePreAux {T : Type} [Inhabited T] (m : ListenerMap T)
    (invokeFunc : T → PluginResult) :
    List ListenerID → PluginResult → PluginResult × List ListenerID
  | [], finalResult => (finalResult, [])
  | idx :: rest, finalResult =>
    let holder := mapGet m idx
    if holder.mode = Pre then
      let result := invokeFunc holder.callback
      let fr := if result > finalResult then result else finalResult
      if fr ≥ Handled then
        (fr, [idx])
      else
        let r := invokePreAux m invokeFunc rest fr
        (r.1, idx :: r.2)
    else
      invokePreAux m invokeFunc rest finalResult

/-- InvokePre invokes all listeners registered with Pre hook mode in the order
they were added, aggregating the largest result and stopping once it reaches
`Handled`.  Returns the final result and the trace of invoked entries. -/
def InvokePre {T : Type} [Inhabited T] (cm : ListenerManager T)
    (invokeFunc : T → PluginResult) : PluginResult × List ListenerID :=
  invokePreAux cm.listeners invokeFunc cm.order Continue

/-- The loop of `InvokePost`, instrumented with the trace of order entries whose
callback was invoked.  The Go `invokeFunc` returns nothing, so the trace is the
entire observable behaviour. -/
def invokePostAux {T : Type} [Inhabited T] (m : ListenerMap T) :
    List ListenerID → List ListenerID
  | [] => []
  | idx :: rest =>
    let holder := mapGet m idx
    if holder.mode = Post then
      idx :: invokePostAux m rest
    else
      invokePostAux m rest

/-- InvokePost invokes all listeners registered with Post hook mode in the
order they were added; results are ignored and there is no early exit.
Returns the trace of invoked entries. -/
def InvokePost {T : Type} [Inhabited T] (cm : ListenerManager T) : List ListenerID :=
  invokePostAux cm.listeners cm.order

/-- A call against the manager API that mutates state. -/
inductive Op (T : Type) where
  | add (callback : T) (mode : HookMode)
  | remove (index : ListenerID)
deriving DecidableEq

/-- Whether an operation is an `Add`. -/
def Op.isAdd {T : Type} : Op T → Bool
  | .add _ _ => true
  | .remove _ => false

/-- Run a sequence of API calls from a given state; `none` as soon as one
`Remove` panics. -/
def runOps {T : Type} (cm : ListenerManager T) : List (Op T) → Option (ListenerManager T)
  | [] => some cm
  | .add cb mode :: rest => runOps (Add cm cb mode).2 rest
  | .remove i :: rest =>
    match Remove cm i with
    | none => none
    | some cm2 => runOps cm2 rest

/-- Run a sequence of API calls, also collecting the IDs returned by the
`Add` calls, in call order. -/
def runOpsIds {T : Type} (cm : ListenerManager T) :
    List (Op T) → Option (ListenerManager T × List ListenerID)
  | [] => some (cm, [])
  | .add cb mode :: rest =>
    let r := Add cm cb mode
    match runOpsIds r.2 rest with
    | none => none
    | some (s, ids) => some (s, r.1 :: ids)
  | .remove i :: rest =>
    match Remove cm i with
    | none => none
    | some cm2 => runOpsIds cm2 rest

/-- Number of `Add` calls in a sequence of operations. -/
def countAdds {T : Type} : List (Op T) → Nat
  | [] => 0
  | .add _ _ :: rest => countAdds rest + 1
  | .remove _ :: rest => countAdds rest

/-- Spec-side: position (exclusive) up to which the Pre pass runs, given the
results its listeners would return: every listener up to and including the
first one whose result reaches `Handled` is visited, and all of them when no
result reaches `Handled`. -/
def visitLen : List PluginResult → Nat
  | [] => 0
  | r :: rest => if r ≥ Handled then 1 else visitLen rest + 1

/-- Spec-side: the entries of a sequence whose stored mode is `Pre`, in order. -/
def preFilter {T : Type} [Inhabited T] (m : ListenerMap T) (L : List ListenerID) :
    List ListenerID :=
  L.filter (fun i => decide ((mapGet m i).mode = Pre))

/-- Spec-side: the entries of a sequence whose stored mode is `Post`, in order. -/
def postFilter {T : Type} [Inhabited T] (m : ListenerMap T) (L : List ListenerID) :
    List ListenerID :=
  L.filter (fun i => decide ((mapGet m i).mode = Post))

/-- Spec-side: the results the Pre-mode entries of a sequence would return. -/
def preResults {T : Type} [Inhabited T] (m : ListenerMap T)
    (invokeFunc : T → PluginResult) (L : List ListenerID) : List PluginResult :=
  (preFilter m L).map (fun i => invokeFunc (mapGet m i).callback)

/-- Spec-side: the order entries whose stored mode is `Pre`, in registration
order. -/
def preIdsOf {T : Type} [Inhabited T] (cm : ListenerManager T) : List ListenerID :=
  preFilter cm.listeners cm.order

/-- Spec-side: the order entries whose stored mode is `Post`, in registration
order. -/
def postIdsOf {T : Type} [Inhabited T] (cm : ListenerManager T) : List ListenerID :=
  postFilter cm.listeners cm.order

/-- Spec-side: the results the Pre-mode listeners would return, in registration
order. -/
def preResultsOf {T : Type} [Inhabited T] (cm : ListenerManager T)
    (invokeFunc : T → PluginResult) : List PluginResult :=
  preResults cm.listeners invokeFunc cm.order

theorem toInt32_ofNat_of_lt {n : Nat} (h : n < 2 ^ 31) : toInt32 (n : Int) = (n : Int) := by
  unfold toInt32
  omega

theorem toInt32_add_one (n : Int) : toInt32 (toInt32 n + 1) = toInt32 (n + 1) := by
  unfold toInt32
  omega

theorem toInt32_injOn {a b : Nat} (ha : a < 2 ^ 32) (hb : b < 2 ^ 32)
    (h : toInt32 (a : Int) = toInt32 (b : Int)) : a = b := by
  unfold toInt32 at h
  omega

theorem toInt32_nonneg_eq {j : Nat} (hj : j < 2 ^ 32) (h : 0 ≤ toInt32 (j : Int)) :
    toInt32 (j : Int) = (j : Int) ∧ j < 2 ^ 31 := by
  unfold toInt32 at *
  omega

theorem lookup_filter_ne {T : Type} {i k : ListenerID} (h : i ≠ k) (m : ListenerMap T) :
    List.lookup i (m.filter (fun p => p.1 != k)) = List.lookup i m := by
  induction m with
  | nil => rfl
  | cons hd tl ih =>
    by_cases hk : hd.1 = k
    · have hik : (i == hd.1) = false := by simp [hk, h]
      have hik2 : (i == k) = false := by simp [h]
      simp [List.filter_cons, hk, List.lookup, hik, hik2, ih]
    · by_cases hih : i = hd.1
      · simp [List.filter_cons, hk, List.lookup, hih]
      · have hik : (i == hd.1) = false := by simp [hih]
        simp [List.filter_cons, hk, List.lookup, hik, ih]

theorem lookup_filter_self {T : Type} (k : ListenerID) (m : ListenerMap T) :
    List.lookup k (m.filter (fun p => p.1 != k)) = none := by
  induction m with
  | nil => rfl
  | cons hd tl ih =>
    by_cases hk : hd.1 = k
    · simp [List.filter_cons, hk, ih]
    · have hkh : (k == hd.1) = false := by
        have hne : ¬k = hd.1 := fun hh => hk hh.symm
        simp [hne]
      simp [List.filter_cons, hk, List.lookup, hkh, ih]

theorem lookup_mapInsert {T : Type} (m : ListenerMap T) (k i : ListenerID)
    (v : listenerHolder T) :
    List.lookup i (mapInsert m k v) = if i = k then some v else List.lookup i m := by
  unfold mapInsert
  by_cases hik : i = k
  · simp [List.lookup, hik]
  · have hik' : (i == k) = false := by simp [hik]
    simp [List.lookup, hik', hik, lookup_filter_ne hik]

theorem lookup_mapDelete {T : Type} (m : ListenerMap T) (k i : ListenerID) :
    List.lookup i (mapDelete m k) = if i = k then none else List.lookup i m := by
  unfold mapDelete
  by_cases hik : i = k
  · subst hik
    simp [lookup_filter_self]
  · simp [hik, lookup_filter_ne hik]

theorem if_gt_eq_max (a b : Int) : (if b > a then b else a) = max a b := by
  rw [Int.max_def]
  split <;> split <;> omega

theorem invokePostAux_eq_filter {T : Type} [Inhabited T] (m : ListenerMap T)
    (L : List ListenerID) : invokePostAux m L = postFilter m L := by
  induction L with
  | nil => rfl
  | cons hd tl ih =>
    unfold invokePostAux postFilter
    by_cases hm : (mapGet m hd).mode = Post
    · simp [List.filter_cons, hm, ih, postFilter]
    · simp [List.filter_cons, hm, ih, postFilter]

theorem invokePreAux_eq {T : Type} [Inhabited T] (m : ListenerMap T)
    (f : T → PluginResult) :
    ∀ (L : List ListenerID) (acc : PluginResult), acc < Handled →
      invokePreAux m f L acc =
        (((preResults m f L).take (visitLen (preResults m f L))).foldl max acc,
          (preFilter m L).take (visitLen (preResults m f L))) := by
  intro L
  induction L with
  | nil => intro acc _; rfl
  | cons hd tl ih =>
    intro acc hacc
    have h2 : Handled = 2 := rfl
    rw [h2] at hacc
    by_cases hm : (mapGet m hd).mode = Pre
    · have hpre : preFilter m (hd :: tl) = hd :: preFilter m tl := by
        simp [preFilter, List.filter_cons, hm]
      have hres : preResults m f (hd :: tl) =
          f (mapGet m hd).callback :: preResults m f tl := by
        simp [preResults, hpre]
      set r := f (mapGet m hd).callback with hr
      rw [hres, hpre]
      simp only [invokePreAux]
      rw [if_pos hm, ← hr]
      by_cases hrH : (2 : Int) ≤ r
      · have hracc : r > acc := lt_of_lt_of_le hacc hrH
        have hfr : (if r > acc then r else acc) = r := if_pos hracc
        have hvl : visitLen (r :: preResults m f tl) = 1 := by
          simp only [visitLen]
          rw [if_pos (show r ≥ Handled by rw [h2]; exact hrH)]
        rw [hfr, if_pos (show r ≥ Handled by rw [h2]; exact hrH), hvl]
        simp only [List.take_succ_cons, List.take_zero, List.foldl_cons, List.foldl_nil]
        rw [max_eq_right (le_of_lt hracc)]
      · have hrlt : r < 2 := not_le.mp hrH
        have hmax : (if r > acc then r else acc) = max acc r := if_gt_eq_max acc r
        have hmaxlt : max acc r < Handled := by
          rw [h2]
          exact max_lt hacc hrlt
        have hfrH : ¬(if r > acc then r else acc) ≥ Handled := by
          rw [hmax]
          exact not_le.mpr hmaxlt
        have hvl : visitLen (r :: preResults m f tl) = visitLen (preResults m f tl) + 1 := by
          simp only [visitLen]
          rw [if_neg (show ¬r ≥ Handled by rw [h2]; exact not_le.mpr hrlt)]
        rw [if_neg hfrH, hmax, hvl, ih (max acc r) hmaxlt]
        simp only [List.take_succ_cons, List.foldl_cons]
    · have hpre : preFilter m (hd :: tl) = preFilter m tl := by
        simp [preFilter, List.filter_cons, hm]
      rw [show preResults m f (hd :: tl) = preResults m f tl by simp [preResults, hpre], hpre]
      simp only [invokePreAux]
      rw [if_neg hm]
      exact ih acc (by rw [h2]; exact hacc)

/-- The values the `DeleteFunc` predicate closure accepts as indices without
panicking: integers in `[0, L)` where `L` is the length of the order slice. -/
def inRangeL (L : Nat) (e : Int) : Prop := 0 ≤ e ∧ e.toNat < L

theorem delPred_eq_some {A : List ListenerID} {x e : ListenerID} {b : Bool}
    (h : delPred A x e = some b) : inRangeL A.length e := by
  unfold delPred at h
  split at h
  · exact ⟨‹0 ≤ e ∧ e.toNat < A.length›.1, ‹0 ≤ e ∧ e.toNat < A.length›.2⟩
  · exact absurd h (by simp)

theorem delPred_eval {A : List ListenerID} {x : ListenerID} {e : Int} (he : 0 ≤ e)
    (hl : e.toNat < A.length) :
    delPred A x e = some (decide (A.get ⟨e.toNat, hl⟩ = x)) := by
  unfold delPred
  rw [dif_pos ⟨he, hl⟩]

theorem inRange_of_get?_delPred {A : List ListenerID} {x e : ListenerID} {b : Bool}
    {q : Nat} (hget : A.get? q = some e) (hdel : delPred A x e = some b)
    (hq : q < A.length) : inRangeL A.length (A.get ⟨q, hq⟩) := by
  have h3 : some (A.get ⟨q, hq⟩) = some e := (List.get?_eq_get hq).symm.trans hget
  rw [Option.some.inj h3]
  exact delPred_eq_some hdel

theorem idx_none_inRange {A : List ListenerID} {x : ListenerID} :
    ∀ (n s : Nat), indexFuncAux A x (List.range' s n) = some none →
      ∀ (q : Nat) (hq : q < A.length), s ≤ q → q < s + n →
        inRangeL A.length (A.get ⟨q, hq⟩) := by
  intro n
  induction n with
  | zero =>
    intro s _ q hq h1 h2
    omega
  | succ k ih =>
    intro s hrun q hq h1 h2
    have hcons : List.range' s (k + 1) = s :: List.range' (s + 1) k := rfl
    rw [hcons] at hrun
    simp only [indexFuncAux] at hrun
    split at hrun
    · next hget =>
      have := List.get?_eq_none.mp hget
      omega
    · next e hget =>
      split at hrun
      · exact absurd hrun (by simp)
      · exact absurd hrun (by simp)
      · next hdel =>
        rcases Nat.eq_or_lt_of_le h1 with heq | hlt
        · have hget' : A.get? q = some e := by rw [← heq]; exact hget
          exact inRange_of_get?_delPred hget' hdel hq
        · exact ih (s + 1) hrun q hq hlt (by omega)

theorem idx_found_inRange {A : List ListenerID} {x : ListenerID} :
    ∀ (n s p0 : Nat), indexFuncAux A x (List.range' s n) = some (some p0) →
      s ≤ p0 ∧ p0 < s + n ∧ p0 < A.length ∧
        ∀ (q : Nat) (hq : q < A.length), s ≤ q → q ≤ p0 →
          inRangeL A.length (A.get ⟨q, hq⟩) := by
  intro n
  induction n with
  | zero =>
    intro s p0 hrun
    exact absurd hrun (by simp [indexFuncAux, List.range'])
  | succ k ih =>
    intro s p0 hrun
    have hcons : List.range' s (k + 1) = s :: List.range' (s + 1) k := rfl
    rw [hcons] at hrun
    simp only [indexFuncAux] at hrun
    split at hrun
    · exact absurd hrun (by simp)
    · next e hget =>
      obtain ⟨hs, hsget⟩ := List.get?_eq_some.mp hget
      split at hrun
      · exact absurd hrun (by simp)
      · next hdel =>
        have hp0 : p0 = s := by
          injection hrun with h1
          injection h1 with h2
          omega
        refine ⟨by omega, by omega, by omega, ?_⟩
        intro q hq hq1 hq2
        have hget' : A.get? q = some e := by rw [show q = s by omega]; exact hget
        exact inRange_of_get?_delPred hget' hdel hq
      · next hdel =>
        obtain ⟨ih1, ih2, ih3, ih4⟩ := ih (s + 1) p0 hrun
        refine ⟨by omega, by omega, ih3, ?_⟩
        intro q hq hq1 hq2
        rcases Nat.eq_or_lt_of_le hq1 with heq | hlt
        · have hget' : A.get? q = some e := by rw [← heq]; exact hget
          exact inRange_of_get?_delPred hget' hdel hq
        · exact ih4 q hq hlt hq2

theorem deleteLoop_inRange {x : ListenerID} :
    ∀ (n s i : Nat) (A : List ListenerID) (r : Nat × List ListenerID), i < s →
      deleteLoop x (List.range' s n) i A = some r →
      ∀ (q : Nat) (hq : q < A.length), s ≤ q → q < s + n →
        inRangeL A.length (A.get ⟨q, hq⟩) := by
  intro n
  induction n with
  | zero =>
    intro s i A r his hrun q hq h1 h2
    omega
  | succ k ih =>
    intro s i A r his hrun q hq h1 h2
    have hcons : List.range' s (k + 1) = s :: List.range' (s + 1) k := rfl
    rw [hcons] at hrun
    simp only [deleteLoop] at hrun
    split at hrun
    · next hget =>
      have := List.get?_eq_none.mp hget
      omega
    · next v hget =>
      obtain ⟨hs, hsget⟩ := List.get?_eq_some.mp hget
      split at hrun
      · exact absurd hrun (by simp)
      · next hdel =>
        rcases Nat.eq_or_lt_of_le h1 with heq | hlt
        · have hget' : A.get? q = some v := by rw [← heq]; exact hget
          exact inRange_of_get?_delPred hget' hdel hq
        · exact ih (s + 1) i A r (by omega) hrun q hq hlt (by omega)
      · next hdel =>
        rcases Nat.eq_or_lt_of_le h1 with heq | hlt
        · have hget' : A.get? q = some v := by rw [← heq]; exact hget
          exact inRange_of_get?_delPred hget' hdel hq
        · have hql : q < (A.set i v).length := by
            rw [List.length_set]
            exact hq
          have hmem := ih (s + 1) (i + 1) (A.set i v) r (by omega) hrun q hql hlt
            (by omega)
          have hne : i ≠ q := by omega
          have hgeq : (A.set i v).get ⟨q, hql⟩ = A.get ⟨q, hq⟩ := by
            simp only [List.get_eq_getElem]
            exact List.getElem_set_ne hne hql
          rw [hgeq] at hmem
          rw [List.length_set] at hmem
          exact hmem

theorem removeOrder_inRange {A : List ListenerID} {x : ListenerID} {B : List ListenerID}
    (h : removeOrder A x = some B) :
    ∀ (q : Nat) (hq : q < A.length), inRangeL A.length (A.get ⟨q, hq⟩) := by
  intro q hq
  unfold removeOrder at h
  rw [List.range_eq_range'] at h
  split at h
  · exact absurd h (by simp)
  · next hidx => exact idx_none_inRange A.length 0 hidx q hq (by omega) (by omega)
  · next p0 hidx =>
    obtain ⟨hp1, hp2, hp3, hp4⟩ := idx_found_inRange A.length 0 p0 hidx
    rcases Nat.lt_or_ge p0 q with hlt | hge
    · split at h
      · exact absurd h (by simp)
      · next i2 B0 hdl =>
        exact deleteLoop_inRange (A.length - (p0 + 1)) (p0 + 1) p0 A (i2, B0) (by omega)
          hdl q hq (by omega) (by omega)
    · exact hp4 q hq (by omega) hge

theorem nat_sorted_bounded_eq_range (J : List Nat) (hs : J.Pairwise (· < ·))
    (hb : ∀ j ∈ J, j < J.length) : J = List.range J.length := by
  have hmono : ∀ (p q : Fin J.length), p < q → J.get p < J.get q :=
    fun p q hpq => List.pairwise_iff_get.mp hs p q hpq
  have hlow : ∀ (m : Nat) (hm : m < J.length), m ≤ J.get ⟨m, hm⟩ := by
    intro m
    induction m with
    | zero => intro hm; exact Nat.zero_le _
    | succ k ih =>
      intro hm
      have hk : k < J.length := by omega
      have h1 := hmono ⟨k, hk⟩ ⟨k + 1, hm⟩ (Nat.lt_succ_self k)
      have h2 := ih hk
      omega
  have hupAux : ∀ (d m : Nat) (hm : m < J.length), J.length - m ≤ d + 1 →
      J.get ⟨m, hm⟩ ≤ m := by
    intro d
    induction d with
    | zero =>
      intro m hm hd
      have h2 := hb (J.get ⟨m, hm⟩) (List.get_mem J m hm)
      omega
    | succ k ih =>
      intro m hm hd
      by_cases hlast : m + 1 < J.length
      · have h1 := hmono ⟨m, hm⟩ ⟨m + 1, hlast⟩ (Nat.lt_succ_self m)
        have h2 := ih (m + 1) hlast (by omega)
        omega
      · have h2 := hb (J.get ⟨m, hm⟩) (List.get_mem J m hm)
        omega
  apply List.ext_get (by rw [List.length_range])
  intro n h1 h2
  have ha := hlow n h1
  have hb2 := hupAux J.length n h1 (by omega)
  have hget : J.get ⟨n, h1⟩ = n := le_antisymm hb2 ha
  rw [hget]
  simp only [List.get_eq_getElem, List.getElem_range]

/-- The ID allotted by the `n`-th `Add` call (0-based): the wrapped counter. -/
def natToID (j : Nat) : ListenerID := toInt32 (j : Int)

/-- The content of the order sequence in states where no gap has been
introduced: position `p` holds exactly the ID `p`. -/
def compactL (L : Nat) : List ListenerID := (List.range L).map (fun j => ((j : Nat) : Int))

theorem order_eq_compact_of_inRange (J : List Nat) (hs : J.Pairwise (· < ·))
    (hk : ∀ j ∈ J, j < 2 ^ 32)
    (hin : ∀ (q : Nat) (hq : q < (J.map natToID).length),
        inRangeL (J.map natToID).length
          ((J.map natToID).get ⟨q, hq⟩)) :
    J = List.range J.length ∧ J.length ≤ 2 ^ 31 ∧
      J.map natToID = compactL J.length := by
  have hlen : (J.map natToID).length = J.length := List.length_map J _
  have helem : ∀ (q : Nat) (hq : q < J.length),
      natToID (J.get ⟨q, hq⟩) = ((J.get ⟨q, hq⟩ : Nat) : Int) ∧
        J.get ⟨q, hq⟩ < 2 ^ 31 ∧ J.get ⟨q, hq⟩ < J.length := by
    intro q hq
    have hq' : q < (J.map natToID).length := by rw [hlen]; exact hq
    have hr := hin q hq'
    have hgm : (J.map natToID).get ⟨q, hq'⟩ = natToID (J.get ⟨q, hq⟩) := by
      simp only [List.get_eq_getElem, List.getElem_map]
    rw [hgm, hlen] at hr
    obtain ⟨hr1, hr2⟩ := hr
    have hjk : J.get ⟨q, hq⟩ < 2 ^ 32 := hk _ (List.get_mem J q hq)
    unfold natToID at hr1 hr2 ⊢
    obtain ⟨he1, he2⟩ := toInt32_nonneg_eq hjk hr1
    refine ⟨he1, he2, ?_⟩
    rw [he1, Int.toNat_ofNat] at hr2
    exact hr2
  have hbound : ∀ j ∈ J, j < J.length := by
    intro j hj
    obtain ⟨⟨q, hq⟩, hget⟩ := List.mem_iff_get.mp hj
    rw [← hget]
    exact (helem q hq).2.2
  have hrange : J = List.range J.length := nat_sorted_bounded_eq_range J hs hbound
  have h31 : ∀ j ∈ J, j < 2 ^ 31 := by
    intro j hj
    obtain ⟨⟨q, hq⟩, hget⟩ := List.mem_iff_get.mp hj
    rw [← hget]
    exact (helem q hq).2.1
  have hsmall : J.length ≤ 2 ^ 31 := by
    rcases Nat.eq_zero_or_pos J.length with h0 | hpos
    · omega
    · have hmem : J.length - 1 ∈ J := by
        have hmr : J.length - 1 ∈ List.range J.length := List.mem_range.mpr (by omega)
        rw [← hrange] at hmr
        exact hmr
      have := h31 _ hmem
      omega
  refine ⟨hrange, hsmall, ?_⟩
  unfold compactL
  conv_lhs => rw [hrange]
  apply List.map_congr_left
  intro a ha
  have haJ : a ∈ J := by rw [hrange]; exact ha
  obtain ⟨⟨q, hq⟩, hget⟩ := List.mem_iff_get.mp haJ
  rw [← hget]
  exact (helem q hq).1

theorem set_append_len {α : Type} : ∀ (l1 : List α) (a : α) (l2 : List α) (v : α),
    (l1 ++ a :: l2).set l1.length v = l1 ++ v :: l2 := by
  intro l1
  induction l1 with
  | nil => intro a l2 v; rfl
  | cons h t ih =>
    intro a l2 v
    simp only [List.cons_append, List.length_cons, List.set_cons_succ, ih]

theorem compactL_length (L : Nat) : (compactL L).length = L := by
  simp [compactL]

theorem compactL_get? {L p : Nat} (hp : p < L) :
    (compactL L).get? p = some ((p : Nat) : Int) := by
  unfold compactL
  rw [List.get?_map, List.get?_range hp]
  rfl

theorem filter_range_ne (x0 : Nat) : ∀ (j : Nat), x0 < j →
    (List.range j).filter (fun p => decide (p ≠ x0)) =
      List.range x0 ++ List.range' (x0 + 1) (j - (x0 + 1)) := by
  intro j
  induction j with
  | zero => intro h; omega
  | succ k ih =>
    intro h
    rcases Nat.lt_or_ge x0 k with hk | hk
    · rw [List.range_succ, List.filter_append, ih hk]
      have hsing : List.filter (fun p => decide (p ≠ x0)) [k] = [k] := by
        simp only [List.filter_cons, decide_eq_true_eq]
        rw [if_pos (by omega)]
        rfl
      rw [hsing, List.append_assoc]
      congr 1
      have h1 : k + 1 - (x0 + 1) = (k - (x0 + 1)) + 1 := by omega
      rw [h1, List.range'_concat]
      congr 2
      omega
    · have hxk : x0 = k := by omega
      subst hxk
      rw [List.range_succ, List.filter_append]
      have h2 : List.filter (fun p => decide (p ≠ x0)) [x0] = [] := by
        simp [List.filter]
      have h3 : (List.range x0).filter (fun p => decide (p ≠ x0)) = List.range x0 := by
        rw [List.filter_eq_self]
        intro a ha
        have := List.mem_range.mp ha
        simp only [decide_eq_true_eq]
        omega
      rw [h2, h3]
      simp

/-- The content of the aliased order slice when the `DeleteFunc` compaction
loop of a compact state is about to scan position `j` (having started at the
hit position `x0`): positions `0, …, j-2` hold the surviving IDs below `j`,
and positions `j-1, …, L-1` still hold their original IDs. -/
def midL (L x0 j : Nat) : List ListenerID :=
  ((List.range j).filter (fun p => decide (p ≠ x0))).map (fun p : Nat => ((p : Nat) : Int)) ++
    (List.range' (j - 1) (L - (j - 1))).map (fun p : Nat => ((p : Nat) : Int))

theorem midL_length {L x0 j : Nat} (h1 : x0 < j) (h2 : j ≤ L) :
    (midL L x0 j).length = L := by
  unfold midL
  rw [List.length_append, List.length_map, List.length_map, filter_range_ne x0 j h1,
    List.length_append, List.length_range, List.length_range', List.length_range']
  omega

theorem midL_start (L x0 : Nat) (h : x0 < L) : midL L x0 (x0 + 1) = compactL L := by
  unfold midL compactL
  rw [filter_range_ne x0 (x0 + 1) (by omega)]
  have h0 : x0 + 1 - (x0 + 1) = 0 := by omega
  rw [h0]
  have hnil : List.range' (x0 + 1) 0 = [] := rfl
  rw [hnil, List.append_nil, ← List.map_append]
  congr 1
  have h1 := List.range'_append 0 x0 (L - x0) 1
  have h2 : 0 + 1 * x0 = x0 := by omega
  rw [h2] at h1
  rw [show L - x0 + x0 = L from by omega] at h1
  have h4 : x0 + 1 - 1 = x0 := by omega
  rw [h4, List.range_eq_range', List.range_eq_range']
  exact h1

theorem filterP_length {x0 j : Nat} (h1 : x0 < j) :
    (((List.range j).filter (fun p => decide (p ≠ x0))).map
      (fun p : Nat => ((p : Nat) : Int))).length = j - 1 := by
  rw [List.length_map, filter_range_ne x0 j h1, List.length_append, List.length_range,
    List.length_range']
  omega

theorem midL_get?_j {L x0 j : Nat} (h1 : x0 < j) (h2 : j < L) :
    (midL L x0 j).get? j = some ((j : Nat) : Int) := by
  unfold midL
  rw [List.get?_append_right (by rw [filterP_length h1]; omega)]
  rw [filterP_length h1]
  rw [show j - (j - 1) = 1 from by omega]
  rw [List.get?_map]
  rw [List.get?_range' (j - 1) 1 (show (1 : Nat) < L - (j - 1) from by omega)]
  rw [show j - 1 + 1 * 1 = j from by omega]
  rfl

theorem compactL_get {L p : Nat} (hp : p < (compactL L).length) :
    (compactL L).get ⟨p, hp⟩ = ((p : Nat) : Int) := by
  unfold compactL at *
  simp only [List.get_eq_getElem, List.getElem_map, List.getElem_range]

theorem delPred_compact {L p : Nat} (hp : p < L) (x : ListenerID) :
    delPred (compactL L) x ((p : Nat) : Int) = some (decide (((p : Nat) : Int) = x)) := by
  have hlen : (compactL L).length = L := compactL_length L
  have hcond : (0 : Int) ≤ ((p : Nat) : Int) ∧
      (((p : Nat) : Int)).toNat < (compactL L).length := by
    constructor
    · exact Int.natCast_nonneg p
    · rw [Int.toNat_ofNat, hlen]
      exact hp
  unfold delPred
  rw [dif_pos hcond]
  congr 1
  have hg : (compactL L).get ⟨(((p : Nat) : Int)).toNat, hcond.2⟩ = ((p : Nat) : Int) :=
    compactL_get hcond.2
  rw [hg]

theorem delPred_midL {L x0 j : Nat} (h1 : x0 < j) (h2 : j < L) :
    delPred (midL L x0 j) ((x0 : Nat) : Int) ((j : Nat) : Int) = some false := by
  have hlen : (midL L x0 j).length = L := midL_length h1 (by omega)
  have hcond : (0 : Int) ≤ ((j : Nat) : Int) ∧
      (((j : Nat) : Int)).toNat < (midL L x0 j).length := by
    constructor
    · exact Int.natCast_nonneg j
    · rw [Int.toNat_ofNat, hlen]
      exact h2
  unfold delPred
  rw [dif_pos hcond]
  have hgg : (midL L x0 j).get ⟨(((j : Nat) : Int)).toNat, hcond.2⟩ = ((j : Nat) : Int) := by
    have hq := midL_get?_j h1 h2
    have h3 : some ((midL L x0 j).get ⟨(((j : Nat) : Int)).toNat, hcond.2⟩) =
        some ((j : Nat) : Int) := by
      rw [← hq]
      exact (List.get?_eq_get hcond.2).symm
    exact Option.some.inj h3
  rw [hgg]
  have hdec : (decide (((j : Nat) : Int) = ((x0 : Nat) : Int))) = false := by
    simp only [decide_eq_false_iff_not, Nat.cast_inj]
    omega
  rw [hdec]

theorem midL_set_step {L x0 j : Nat} (h1 : x0 < j) (h2 : j < L) :
    (midL L x0 j).set (j - 1) ((j : Nat) : Int) = midL L x0 (j + 1) := by
  have htail : List.range' (j - 1) (L - (j - 1)) = (j - 1) :: List.range' j (L - j) := by
    rw [show L - (j - 1) = (L - j) + 1 from by omega]
    rw [show List.range' (j - 1) ((L - j) + 1) =
        (j - 1) :: List.range' (j - 1 + 1) (L - j) from rfl]
    rw [show j - 1 + 1 = j from by omega]
  have hset := set_append_len
    (((List.range j).filter (fun p => decide (p ≠ x0))).map (fun p : Nat => ((p : Nat) : Int)))
    (((j - 1 : Nat) : Int))
    ((List.range' j (L - j)).map (fun p : Nat => ((p : Nat) : Int)))
    ((j : Nat) : Int)
  rw [filterP_length h1] at hset
  unfold midL
  rw [htail]
  simp only [List.map_cons]
  rw [hset]
  rw [show j + 1 - 1 = j from by omega]
  rw [filter_range_ne x0 (j + 1) (by omega), filter_range_ne x0 j h1]
  rw [show j + 1 - (x0 + 1) = (j - (x0 + 1)) + 1 from by omega, List.range'_concat]
  rw [show x0 + 1 + 1 * (j - (x0 + 1)) = j from by omega]
  simp [List.map_append, List.append_assoc]

theorem deleteLoop_midL {L x0 : Nat} (hx : x0 < L) :
    ∀ (n j i : Nat), x0 < j → j + n = L → i + 1 = j →
      deleteLoop ((x0 : Nat) : Int) (List.range' j n) i (midL L x0 j) =
        some (L - 1, midL L x0 L) := by
  intro n
  induction n with
  | zero =>
    intro j i h1 h2 h3
    have hj : j = L := by omega
    subst hj
    obtain rfl : i = j - 1 := by omega
    rfl
  | succ k ih =>
    intro j i h1 h2 h3
    obtain rfl : i = j - 1 := by omega
    have hjL : j < L := by omega
    rw [show List.range' j (k + 1) = j :: List.range' (j + 1) k from rfl]
    simp only [deleteLoop]
    rw [midL_get?_j h1 hjL]
    simp only [delPred_midL h1 hjL]
    rw [midL_set_step h1 hjL]
    exact ih (j + 1) (j - 1 + 1) (by omega) (by omega) (by omega)

theorem idx_compact_before {L x0 : Nat} (hx : x0 < L) :
    ∀ (n s : Nat), s ≤ x0 → s + n = L →
      indexFuncAux (compactL L) ((x0 : Nat) : Int) (List.range' s n) = some (some x0) := by
  intro n
  induction n with
  | zero =>
    intro s h1 h2
    omega
  | succ k ih =>
    intro s h1 h2
    have hsL : s < L := by omega
    rw [show List.range' s (k + 1) = s :: List.range' (s + 1) k from rfl]
    simp only [indexFuncAux]
    rw [show (compactL L).get? s = some ((s : Nat) : Int) from compactL_get? hsL]
    simp only [delPred_compact hsL]
    rcases Nat.eq_or_lt_of_le h1 with heq | hlt
    · subst heq
      simp
    · have hdec : (decide (((s : Nat) : Int) = ((x0 : Nat) : Int))) = false := by
        simp only [decide_eq_false_iff_not, Nat.cast_inj]
        omega
      rw [hdec]
      exact ih (s + 1) (by omega) (by omega)

theorem idx_compact_none {L : Nat} {x : ListenerID} (hx : ∀ p, p < L → ((p : Nat) : Int) ≠ x) :
    ∀ (n s : Nat), s + n ≤ L →
      indexFuncAux (compactL L) x (List.range' s n) = some none := by
  intro n
  induction n with
  | zero =>
    intro s _
    rfl
  | succ k ih =>
    intro s h2
    have hsL : s < L := by omega
    rw [show List.range' s (k + 1) = s :: List.range' (s + 1) k from rfl]
    simp only [indexFuncAux]
    rw [show (compactL L).get? s = some ((s : Nat) : Int) from compactL_get? hsL]
    simp only [delPred_compact hsL]
    have hdec : (decide (((s : Nat) : Int) = x)) = false := by
      simp only [decide_eq_false_iff_not]
      exact hx s hsL
    rw [hdec]
    exact ih (s + 1) (by omega)

theorem removeOrder_compact_found {L x0 : Nat} (hx : x0 < L) :
    removeOrder (compactL L) ((x0 : Nat) : Int) =
      some ((List.range x0 ++ List.range' (x0 + 1) (L - (x0 + 1))).map
        (fun p : Nat => ((p : Nat) : Int))) := by
  unfold removeOrder
  rw [compactL_length, List.range_eq_range']
  simp only [idx_compact_before hx L 0 (by omega) (by omega)]
  rw [← midL_start L x0 hx]
  simp only [deleteLoop_midL hx (L - (x0 + 1)) (x0 + 1) x0 (by omega) (by omega) (by omega)]
  have htake : (midL L x0 L).take (L - 1) =
      ((List.range L).filter (fun p => decide (p ≠ x0))).map
        (fun p : Nat => ((p : Nat) : Int)) := by
    unfold midL
    exact List.take_left' (filterP_length hx)
  rw [htake, filter_range_ne x0 L hx]

theorem removeOrder_compact_absent {L : Nat} {x : ListenerID}
    (hx : ∀ p, p < L → ((p : Nat) : Int) ≠ x) :
    removeOrder (compactL L) x = some (compactL L) := by
  unfold removeOrder
  rw [compactL_length, List.range_eq_range']
  simp only [idx_compact_none hx L 0 (by omega)]

/-- The reachability invariant after `k` `Add` calls: the counter holds the
wrapped value of `k`, the order sequence is the image under the wrapped cast
of a strictly increasing list of issue numbers below `k`, and an ID is in the
order sequence exactly when it has a map entry. -/
def InvAt {T : Type} (s : ListenerManager T) (k : Nat) : Prop :=
  s.id = toInt32 ((k : Nat) : Int) ∧
  (∃ J : List Nat, J.Pairwise (· < ·) ∧ (∀ j ∈ J, j < k) ∧ s.order = J.map natToID) ∧
  (∀ i : ListenerID, i ∈ s.order ↔ (List.lookup i s.listeners).isSome)

theorem InvAt_new (T : Type) : InvAt (NewListener T) 0 := by
  refine ⟨by exact (by decide : (0 : Int) = toInt32 ((0 : Nat) : Int)),
    ⟨[], by simp, by simp, by simp [NewListener]⟩, ?_⟩
  intro i
  simp [NewListener, List.lookup]

theorem InvAt_add {T : Type} {s : ListenerManager T} {k : Nat} (h : InvAt s k)
    (hk : k < 2 ^ 32) (cb : T) (mode : HookMode) :
    InvAt (Add s cb mode).2 (k + 1) := by
  obtain ⟨hid, ⟨J, hJs, hJb, hJo⟩, hiff⟩ := h
  refine ⟨?_, ⟨J ++ [k], ?_, ?_, ?_⟩, ?_⟩
  · show toInt32 (s.id + 1) = toInt32 ((k + 1 : Nat) : Int)
    rw [hid, toInt32_add_one]
    congr 1
    try omega
  · rw [List.pairwise_append]
    refine ⟨hJs, by simp, ?_⟩
    intro a ha b hb
    have hbk : b = k := by simpa using hb
    subst hbk
    exact hJb a ha
  · intro j hj
    rcases List.mem_append.mp hj with h1 | h1
    · have := hJb j h1
      omega
    · have : j = k := by simpa using h1
      omega
  · show s.order ++ [s.id] = (J ++ [k]).map natToID
    rw [hJo, List.map_append, hid]
    simp [natToID]
  · intro i
    show i ∈ s.order ++ [s.id] ↔
      (List.lookup i (mapInsert s.listeners s.id ⟨cb, mode⟩)).isSome
    rw [lookup_mapInsert, List.mem_append]
    by_cases hik : i = s.id
    · simp [hik]
    · rw [if_neg hik]
      constructor
      · rintro (h1 | h1)
        · exact (hiff i).mp h1
        · exact absurd (by simpa using h1) hik
      · intro h1
        exact Or.inl ((hiff i).mpr h1)

theorem InvAt_remove {T : Type} {s s2 : ListenerManager T} {k : Nat} (h : InvAt s k)
    (hk : k ≤ 2 ^ 32) {x : ListenerID} (hrm : Remove s x = some s2) : InvAt s2 k := by
  obtain ⟨hid, ⟨J, hJs, hJb, hJo⟩, hiff⟩ := h
  unfold Remove at hrm
  split at hrm
  · exact absurd hrm (by simp)
  · next B hro =>
    have hs2 : s2 = { s with listeners := mapDelete s.listeners x, order := B } :=
      (Option.some.inj hrm).symm
    have hro' : removeOrder (J.map natToID) x = some B := by
      rw [← hJo]
      exact hro
    have hin := removeOrder_inRange hro'
    obtain ⟨hrange, hsmall, hmap⟩ := order_eq_compact_of_inRange J hJs
      (fun j hj => lt_of_lt_of_le (hJb j hj) hk) hin
    have horder : s.order = compactL J.length := by
      rw [hJo, hmap]
    have hro2 : removeOrder (compactL J.length) x = some B := by
      rw [← horder]
      exact hro
    have hLk : ∀ j : Nat, j < J.length → j < k := by
      intro j hj
      have hmem : j ∈ J := by
        rw [hrange]
        exact List.mem_range.mpr hj
      exact hJb j hmem
    rw [hs2]
    by_cases hfound : ∃ p, p < J.length ∧ ((p : Nat) : Int) = x
    · obtain ⟨x0, hx0L, hx0⟩ := hfound
      have hcomp := removeOrder_compact_found hx0L
      rw [hx0, hro2] at hcomp
      have hB : B = (List.range x0 ++ List.range' (x0 + 1) (J.length - (x0 + 1))).map
          (fun p : Nat => ((p : Nat) : Int)) := Option.some.inj hcomp
      have hmemL : ∀ j ∈ List.range x0 ++ List.range' (x0 + 1) (J.length - (x0 + 1)),
          j < J.length := by
        intro j hj
        rcases List.mem_append.mp hj with h1 | h1
        · have := List.mem_range.mp h1
          omega
        · have := List.mem_range'_1.mp h1
          omega
      have hBnat : B = (List.range x0 ++ List.range' (x0 + 1) (J.length - (x0 + 1))).map
          natToID := by
        rw [hB]
        symm
        apply List.map_congr_left
        intro a ha
        unfold natToID
        exact toInt32_ofNat_of_lt (lt_of_lt_of_le (hmemL a ha) hsmall)
      refine ⟨hid, ⟨List.range x0 ++ List.range' (x0 + 1) (J.length - (x0 + 1)),
        ?_, ?_, hBnat⟩, ?_⟩
      · rw [List.pairwise_append]
        refine ⟨List.pairwise_lt_range x0, List.pairwise_lt_range' (x0 + 1) _, ?_⟩
        intro a ha b hb
        have h1 := List.mem_range.mp ha
        have h2 := (List.mem_range'_1.mp hb).1
        omega
      · intro j hj
        exact hLk j (hmemL j hj)
      · intro i
        show i ∈ B ↔ (List.lookup i (mapDelete s.listeners x)).isSome
        rw [lookup_mapDelete]
        by_cases hix : i = x
        · rw [if_pos hix]
          simp only [Option.isSome_none, Bool.false_eq_true, iff_false]
          intro hmem
          rw [hB, hix, ← hx0] at hmem
          obtain ⟨p, hp1, hp2⟩ := List.mem_map.mp hmem
          have hpx : p = x0 := by
            have := Nat.cast_inj.mp hp2
            omega
          subst hpx
          rcases List.mem_append.mp hp1 with h1 | h1
          · have := List.mem_range.mp h1
            omega
          · have := (List.mem_range'_1.mp h1).1
            omega
        · rw [if_neg hix]
          rw [← hiff i]
          rw [hB, horder]
          unfold compactL
          constructor
          · intro hmem
            obtain ⟨p, hp1, hp2⟩ := List.mem_map.mp hmem
            exact List.mem_map.mpr ⟨p, List.mem_range.mpr (hmemL p hp1), hp2⟩
          · intro hmem
            obtain ⟨p, hp1, hp2⟩ := List.mem_map.mp hmem
            have hpL := List.mem_range.mp hp1
            have hpx : p ≠ x0 := by
              intro hpe
              subst hpe
              rw [hp2] at hx0
              exact hix hx0
            refine List.mem_map.mpr ⟨p, List.mem_append.mpr ?_, hp2⟩
            rcases Nat.lt_or_ge p x0 with hplt | hpge
            · exact Or.inl (List.mem_range.mpr hplt)
            · refine Or.inr (List.mem_range'_1.mpr ⟨by omega, by omega⟩)
    · push_neg at hfound
      have habs : ∀ p, p < J.length → ((p : Nat) : Int) ≠ x := hfound
      have hcomp := removeOrder_compact_absent habs
      rw [hro2] at hcomp
      have hB : B = compactL J.length := Option.some.inj hcomp
      have hBord : B = s.order := by
        rw [hB, horder]
      refine ⟨hid, ⟨J, hJs, hJb, by rw [hBord, hJo]⟩, ?_⟩
      intro i
      show i ∈ B ↔ (List.lookup i (mapDelete s.listeners x)).isSome
      rw [lookup_mapDelete]
      by_cases hix : i = x
      · rw [if_pos hix]
        simp only [Option.isSome_none, Bool.false_eq_true, iff_false]
        intro hmem
        rw [hB, hix] at hmem
        unfold compactL at hmem
        obtain ⟨p, hp1, hp2⟩ := List.mem_map.mp hmem
        exact habs p (List.mem_range.mp hp1) hp2
      · rw [if_neg hix, hBord]
        exact hiff i

theorem Remove_id {T : Type} {cm cm2 : ListenerManager T} {x : ListenerID}
    (h : Remove cm x = some cm2) : cm2.id = cm.id := by
  unfold Remove at h
  split at h
  · exact absurd h (by simp)
  · next B hro =>
    rw [← Option.some.inj h]

theorem runOps_InvAt {T : Type} :
    ∀ (ops : List (Op T)) (s : ListenerManager T) (k : Nat), InvAt s k →
      k + countAdds ops ≤ 2 ^ 32 → ∀ s2, runOps s ops = some s2 →
      InvAt s2 (k + countAdds ops) := by
  intro ops
  induction ops with
  | nil =>
    intro s k h hb s2 hrun
    simp only [runOps] at hrun
    rw [← Option.some.inj hrun]
    simpa [countAdds] using h
  | cons op rest ih =>
    intro s k h hb s2 hrun
    cases op with
    | add cb mode =>
      simp only [runOps] at hrun
      have hk32 : k < 2 ^ 32 := by
        simp [countAdds] at hb
        omega
      have h1 := InvAt_add h hk32 cb mode
      have hb1 : k + 1 + countAdds rest ≤ 2 ^ 32 := by
        simp [countAdds] at hb
        omega
      have h2 := ih (Add s cb mode).2 (k + 1) h1 hb1 s2 hrun
      have harith : k + 1 + countAdds rest = k + countAdds (Op.add cb mode :: rest) := by
        simp [countAdds]
        omega
      rw [← harith]
      exact h2
    | remove x =>
      simp only [runOps] at hrun
      split at hrun
      · exact absurd hrun (by simp)
      · next cm2 hrm =>
        have hkb : k ≤ 2 ^ 32 := by
          simp [countAdds] at hb
          omega
        have h1 := InvAt_remove h hkb hrm
        have h2 := ih cm2 k h1 (by simpa [countAdds] using hb) s2 hrun
        simpa [countAdds] using h2

theorem InvAt_nodup {T : Type} {s : ListenerManager T} {k : Nat} (h : InvAt s k)
    (hk : k ≤ 2 ^ 32) : s.order.Nodup := by
  obtain ⟨_, ⟨J, hJs, hJb, hJo⟩, _⟩ := h
  rw [hJo]
  apply List.Nodup.map_on
  · intro a ha b hb hab
    unfold natToID at hab
    exact toInt32_injOn (lt_of_lt_of_le (hJb a ha) hk) (lt_of_lt_of_le (hJb b hb) hk) hab
  · exact hJs.imp Nat.ne_of_lt

theorem runOpsIds_runOps {T : Type} :
    ∀ (ops : List (Op T)) (s s2 : ListenerManager T) (ids : List ListenerID),
      runOpsIds s ops = some (s2, ids) → runOps s ops = some s2 := by
  intro ops
  induction ops with
  | nil =>
    intro s s2 ids h
    simp only [runOpsIds] at h
    injection Option.some.inj h with hs hi
    simp only [runOps]
    rw [hs]
  | cons op rest ih =>
    intro s s2 ids h
    cases op with
    | add cb mode =>
      simp only [runOpsIds] at h
      split at h
      · exact absurd h (by simp)
      · next s' ids' hrun =>
        injection Option.some.inj h with hs hi
        simp only [runOps]
        rw [← hs]
        exact ih (Add s cb mode).2 s' ids' hrun
    | remove x =>
      simp only [runOpsIds] at h
      split at h
      · exact absurd h (by simp)
      · next cm2 hrm =>
        simp only [runOps, hrm]
        exact ih cm2 s2 ids h

/-- Iterated `Add` with a fixed callback and mode. -/
def addN {T : Type} (cb : T) (mode : HookMode) : Nat → ListenerManager T → ListenerManager T
  | 0, s => s
  | n + 1, s => addN cb mode n (Add s cb mode).2

/-- The IDs issued by `n` successive `Add` calls starting from counter `v`. -/
def idSeq : Int → Nat → List ListenerID
  | _, 0 => []
  | v, n + 1 => v :: idSeq (toInt32 (v + 1)) n

theorem runOpsIds_replicate {T : Type} (cb : T) (mode : HookMode) :
    ∀ (n : Nat) (s : ListenerManager T),
      runOpsIds s (List.replicate n (Op.add cb mode)) =
        some (addN cb mode n s, idSeq s.id n) := by
  intro n
  induction n with
  | zero => intro s; rfl
  | succ k ih =>
    intro s
    rw [List.replicate_succ]
    simp only [runOpsIds]
    rw [ih (Add s cb mode).2]
    rfl

theorem idSeq_eq_range' : ∀ (n k : Nat), idSeq (toInt32 ((k : Nat) : Int)) n =
    (List.range' k n).map natToID := by
  intro n
  induction n with
  | zero => intro k; rfl
  | succ m ih =>
    intro k
    show toInt32 ((k : Nat) : Int) ::
        idSeq (toInt32 (toInt32 ((k : Nat) : Int) + 1)) m = _
    rw [toInt32_add_one]
    rw [show ((k : Nat) : Int) + 1 = (((k + 1 : Nat) : Nat) : Int) from by push_cast; ring]
    rw [ih (k + 1)]
    rfl

theorem addN_order {T : Type} (cb : T) (mode : HookMode) :
    ∀ (n : Nat) (s : ListenerManager T),
      (addN cb mode n s).order = s.order ++ idSeq s.id n := by
  intro n
  induction n with
  | zero =>
    intro s
    show s.order = s.order ++ ([] : List ListenerID)
    rw [List.append_nil]
  | succ m ih =>
    intro s
    show (addN cb mode m (Add s cb mode).2).order = _
    rw [ih]
    show (s.order ++ [s.id]) ++ idSeq (toInt32 (s.id + 1)) m =
      s.order ++ (s.id :: idSeq (toInt32 (s.id + 1)) m)
    rw [List.append_assoc]
    rfl

theorem addN_order_fresh (n : Nat) :
    (addN () Pre n (NewListener Unit)).order = (List.range' 0 n).map natToID := by
  rw [addN_order]
  show [] ++ idSeq (0 : Int) n = _
  rw [List.nil_append]
  rw [show (0 : Int) = toInt32 ((0 : Nat) : Int) from by decide]
  exact idSeq_eq_range' n 0

theorem not_nodup_wrap : ¬ ((List.range' 0 (2 ^ 32 + 1)).map natToID).Nodup := by
  intro hnd
  have hinj := List.inj_on_of_nodup_map hnd
  have hm0 : 0 ∈ List.range' 0 (2 ^ 32 + 1) := List.mem_range'_1.mpr ⟨by omega, by omega⟩
  have hm1 : 2 ^ 32 ∈ List.range' 0 (2 ^ 32 + 1) :=
    List.mem_range'_1.mpr ⟨by omega, by omega⟩
  have hval : natToID 0 = natToID (2 ^ 32) := by
    unfold natToID toInt32
    decide
  have := hinj hm0 hm1 hval
  omega

theorem runOpsIds_ids {T : Type} :
    ∀ (ops : List (Op T)) (s : ListenerManager T) (k : Nat),
      s.id = toInt32 ((k : Nat) : Int) → k + countAdds ops ≤ 2 ^ 31 →
      ∀ (s2 : ListenerManager T) (ids : List ListenerID),
        runOpsIds s ops = some (s2, ids) →
        ids = (List.range' k (countAdds ops)).map (fun j : Nat => ((j : Nat) : Int)) := by
  intro ops
  induction ops with
  | nil =>
    intro s k hid hb s2 ids h
    simp only [runOpsIds] at h
    injection Option.some.inj h with hs hi
    rw [← hi]
    simp [countAdds]
  | cons op rest ih =>
    intro s k hid hb s2 ids h
    cases op with
    | add cb mode =>
      simp only [runOpsIds] at h
      split at h
      · exact absurd h (by simp)
      · next s' ids' hrun =>
        injection Option.some.inj h with hs hids
        have hidnew : (Add s cb mode).2.id = toInt32 (((k + 1 : Nat) : Nat) : Int) := by
          show toInt32 (s.id + 1) = _
          rw [hid, toInt32_add_one]
          congr 1
          try push_cast
          try ring
        have hkb : k + 1 + countAdds rest ≤ 2 ^ 31 := by
          simp [countAdds] at hb
          omega
        have htail := ih (Add s cb mode).2 (k + 1) hidnew hkb s' ids' hrun
        rw [← hids, htail]
        have hhead : (Add s cb mode).1 = ((k : Nat) : Int) := by
          show s.id = _
          rw [hid]
          exact toInt32_ofNat_of_lt (by simp [countAdds] at hb; omega)
        rw [hhead]
        simp only [countAdds]
        rfl
    | remove x =>
      simp only [runOpsIds] at h
      split at h
      · exact absurd h (by simp)
      · next cm2 hrm =>
        have hid2 : cm2.id = toInt32 ((k : Nat) : Int) := by
          rw [Remove_id hrm, hid]
        have hres := ih cm2 k hid2 (by simpa [countAdds] using hb) s2 ids h
        simpa [countAdds] using hres

theorem chain'_lt_range'_cast (k n : Nat) :
    List.Chain' (fun a b : ListenerID => a < b)
      ((List.range' k n).map (fun j : Nat => ((j : Nat) : Int))) := by
  apply List.Pairwise.chain'
  apply List.Pairwise.map
  · intro a b hab
    exact_mod_cast hab
  · exact List.pairwise_lt_range' k n

theorem runOpsIds_adds_order {T : Type} :
    ∀ (ops : List (Op T)), (∀ o ∈ ops, o.isAdd = true) →
      ∀ (s s2 : ListenerManager T) (ids : List ListenerID),
        runOpsIds s ops = some (s2, ids) → s2.order = s.order ++ ids := by
  intro ops
  induction ops with
  | nil =>
    intro _ s s2 ids h
    simp only [runOpsIds] at h
    injection Option.some.inj h with hs hi
    rw [← hs, ← hi, List.append_nil]
  | cons op rest ih =>
    intro hall s s2 ids h
    cases op with
    | add cb mode =>
      simp only [runOpsIds] at h
      split at h
      · exact absurd h (by simp)
      · next s' ids' hrun =>
        injection Option.some.inj h with hs hids
        have hrec := ih (fun o ho => hall o (List.mem_cons_of_mem _ ho))
          (Add s cb mode).2 s' ids' hrun
        rw [← hs, ← hids, hrec]
        show (s.order ++ [s.id]) ++ ids' = s.order ++ s.id :: ids'
        rw [List.append_assoc]
        rfl
    | remove x =>
      have := hall (Op.remove x) (by simp)
      simp [Op.isAdd] at this

theorem visitLen_of_all_lt {rs : List PluginResult} (h : ∀ r ∈ rs, r < Handled) :
    visitLen rs = rs.length := by
  induction rs with
  | nil => rfl
  | cons r rest ih =>
    show (if r ≥ Handled then 1 else visitLen rest + 1) = rest.length + 1
    rw [if_neg (not_le.mpr (h r (by simp)))]
    rw [ih (fun x hx => h x (by simp [hx]))]

theorem idSeq_fresh (n : Nat) : idSeq (0 : Int) n = (List.range' 0 n).map natToID := by
  rw [show (0 : Int) = toInt32 ((0 : Nat) : Int) from by decide]
  exact idSeq_eq_range' n 0

theorem get_map_range'_natToID {n p : Nat}
    (h2 : p < ((List.range' 0 n).map natToID).length) :
    ((List.range' 0 n).map natToID).get ⟨p, h2⟩ = natToID p := by
  simp [List.get_eq_getElem, List.getElem_map, List.getElem_range']

theorem getD_map_range'_natToID {n p : Nat} (hp : p < n) :
    ((List.range' 0 n).map natToID).getD p 0 = natToID p := by
  have hlt : p < ((List.range' 0 n).map natToID).length := by
    rw [List.length_map, List.length_range']
    omega
  rw [List.getD_eq_get _ _ hlt]
  exact get_map_range'_natToID hlt

theorem not_chain'_wrap : ¬ List.Chain' (fun a b : ListenerID => a < b)
    ((List.range' 0 (2 ^ 31 + 1)).map natToID) := by
  intro hch
  rw [List.chain'_iff_get] at hch
  have hlen : ((List.range' 0 (2 ^ 31 + 1)).map natToID).length = 2 ^ 31 + 1 := by
    rw [List.length_map, List.length_range']
  have hb : 2 ^ 31 - 1 < ((List.range' 0 (2 ^ 31 + 1)).map natToID).length - 1 := by
    omega
  have h := hch (2 ^ 31 - 1) hb
  have h' : natToID (2 ^ 31 - 1) < natToID (2 ^ 31 - 1 + 1) := by
    rw [← get_map_range'_natToID (n := 2 ^ 31 + 1) (p := 2 ^ 31 - 1) (by omega),
      ← get_map_range'_natToID (n := 2 ^ 31 + 1) (p := 2 ^ 31 - 1 + 1) (by omega)]
    exact h
  have hv1 : natToID (2 ^ 31 - 1) = 2 ^ 31 - 1 := by
    unfold natToID toInt32
    decide
  have hv2 : natToID (2 ^ 31 - 1 + 1) = -(2 ^ 31) := by
    unfold natToID toInt32
    decide
  rw [hv1, hv2] at h'
  exact absurd h' (by decide)

/-- Concrete states and invoke adapters used by witnesses and test instances. -/
def c1state : ListenerManager Unit := ⟨[(1, ⟨(), Pre⟩)], [1], 2⟩

def c3state : ListenerManager Unit := ⟨[(2, ⟨(), Pre⟩), (1, ⟨(), Pre⟩)], [1, 2], 3⟩

def c4state : ListenerManager Unit := ⟨[(1, ⟨(), Pre⟩)], [1], 2⟩

def c6ops : List (Op Unit) := [Op.add () Pre, Op.add () Pre, Op.remove 0, Op.add () Pre]

def idsWrap : List ListenerID := (List.range' 0 (2 ^ 31 + 1)).map natToID

def mgrChanged : ListenerManager Int :=
  ⟨[(0, ⟨Continue, Pre⟩), (1, ⟨Changed, Pre⟩), (2, ⟨Continue, Pre⟩)], [0, 1, 2], 3⟩

def mgrHandled : ListenerManager Int :=
  ⟨[(0, ⟨Continue, Pre⟩), (1, ⟨Handled, Pre⟩), (2, ⟨Changed, Pre⟩)], [0, 1, 2], 3⟩

def mgrStop : ListenerManager Int :=
  ⟨[(0, ⟨Stop, Pre⟩), (1, ⟨Continue, Pre⟩), (2, ⟨Continue, Pre⟩)], [0, 1, 2], 3⟩

def idInvoke : Int → PluginResult := fun t => t

def c7ops : List (Op Int) := [Op.add 10 Pre, Op.add 20 Post, Op.add 30 Pre]

def c7state : ListenerManager Int :=
  ⟨[(2, ⟨30, Pre⟩), (1, ⟨20, Post⟩), (0, ⟨10, Pre⟩)], [0, 1, 2], 3⟩

def c7f : Int → PluginResult := fun _ => Continue

def c8state : ListenerManager Int := ⟨[(0, ⟨5, Pre⟩), (1, ⟨7, Post⟩)], [0, 1], 2⟩

def c8f : Int → PluginResult := fun _ => Continue

def c9state : ListenerManager Int :=
  ⟨[(0, ⟨3, Post⟩), (1, ⟨3, Post⟩), (2, ⟨3, Post⟩)], [0, 1, 2], 3⟩

def c10f : Unit → PluginResult := fun _ => Continue

/-- C1: the claim says `Remove(id)` on a previously issued, still registered ID
deletes the map entry and removes the element equal to `id` from the order
sequence, by ID value regardless of position.  The code instead indexes the
order slice with the element value: in the reachable state after
Add; Add; Remove(0) — where ID 1 sits at position 0 of a length-1 order
sequence — `Remove(1)` evaluates `order[1]`, out of range, and panics instead
of unregistering listener 1.  The spec itself flags this indexing as a latent
bug and names removal-by-value as the intended contract, so the code, not the
claim, is wrong. -/
theorem C1_remove_by_value_code_bug :
    runOps (NewListener Unit) [Op.add () Pre, Op.add () Pre, Op.remove 0] =
      some c1state ∧
    (1 : ListenerID) ∈ c1state.order ∧
    (List.lookup 1 c1state.listeners).isSome = true ∧
    Remove c1state 1 = none :=
  ⟨by decide, by decide, by decide, by decide⟩

/-- C2 (amended): in every state reachable from a fresh manager by a sequence
of Add and Remove calls containing at most 2^32 Add calls, an ID is in the
order sequence iff it has a listener-map entry, and the order sequence has no
duplicates.  (Beyond 2^32 Adds the wrapped int32 counter reissues IDs and the
no-duplicates part fails; see the counterexample.) -/
theorem C2_invariant_bounded (T : Type) (ops : List (Op T)) (s2 : ListenerManager T)
    (hcount : countAdds ops ≤ 2 ^ 32) (hrun : runOps (NewListener T) ops = some s2) :
    s2.order.Nodup ∧
      ∀ i : ListenerID, i ∈ s2.order ↔ (List.lookup i s2.listeners).isSome := by
  have h := runOps_InvAt ops (NewListener T) 0 (InvAt_new T) (by omega) s2 hrun
  exact ⟨InvAt_nodup h (by omega), h.2.2⟩

/-- C2 witness: a concrete Add; Add; Remove(0) run reaches a state satisfying
the invariant. -/
theorem C2_witness :
    countAdds ([Op.add () Pre, Op.add () Pre, Op.remove 0] : List (Op Unit)) ≤ 2 ^ 32 ∧
    (c1state.order.Nodup ∧
      ∀ i : ListenerID, i ∈ c1state.order ↔ (List.lookup i c1state.listeners).isSome) :=
  ⟨by decide,
    C2_invariant_bounded Unit [Op.add () Pre, Op.add () Pre, Op.remove 0] c1state
      (by decide) (by decide)⟩

/-- C2 counterexample: a sequence of 2^32+1 Add calls is a reachable run after
which the wrapped int32 counter has reissued ID 0, so the order sequence
contains ID 0 twice and is not duplicate-free, refuting the claim as stated
over all Add/Remove sequences. -/
theorem C2_counterexample :
    runOps (NewListener Unit) (List.replicate (2 ^ 32 + 1) (Op.add () Pre)) =
      some (addN () Pre (2 ^ 32 + 1) (NewListener Unit)) ∧
    ¬ (addN () Pre (2 ^ 32 + 1) (NewListener Unit)).order.Nodup := by
  constructor
  · exact runOpsIds_runOps _ _ _ _
      (runOpsIds_replicate () Pre (2 ^ 32 + 1) (NewListener Unit))
  · rw [addN_order_fresh]
    exact not_nodup_wrap

/-- C3: the claim says `Remove` of an unregistered ID is a silent no-op on
every reachable state.  In the reachable state after Add; Add; Remove(0); Add
— order sequence [1, 2] — `Remove(5)` (an ID never issued) evaluates the
predicate at element 2 and reads `order[2]`, out of range for the length-2
slice: the code panics instead of doing nothing.  The code's own doc comment
("If the listener does not exist, the call has no effect") and the spec agree
on the claim, so the code is wrong. -/
theorem C3_noop_removal_code_bug :
    runOps (NewListener Unit)
        [Op.add () Pre, Op.add () Pre, Op.remove 0, Op.add () Pre] = some c3state ∧
    List.lookup 5 c3state.listeners = none ∧
    (5 : ListenerID) ∉ c3state.order ∧
    Remove c3state 5 = none :=
  ⟨by decide, by decide, by decide, by decide⟩

/-- C4: the claim says no operation faults — every index `Remove` uses to read
the order sequence is in bounds.  In the reachable state after
Add; Remove(0); Add — order sequence [1] — `Remove(1)` evaluates the predicate
at element 1 and reads `order[1]`, out of range for the length-1 slice, a
runtime panic (index out of range).  The spec's failure-semantics section is
the intent and the element-as-index read is the slip, so the code is wrong. -/
theorem C4_no_fault_code_bug :
    runOps (NewListener Unit) [Op.add () Pre, Op.remove 0, Op.add () Pre] =
      some c4state ∧
    Remove c4state 1 = none :=
  ⟨by decide, by decide⟩

/-- C5: for every manager state and invoke function, `InvokePre` visits the
Pre-mode entries in registration order up to and including the first whose
result reaches `Handled` (all of them otherwise) and returns the maximum
result observed starting from `Continue`; in particular results
[Continue, Changed, Continue] give `Changed` with all three visited,
[Continue, Handled, Changed] give `Handled` with the third never invoked, and
a leading `Stop` gives `Stop` with no further listener invoked. -/
theorem C5_invokePre_aggregation :
    (∀ (T : Type) [Inhabited T] (cm : ListenerManager T) (f : T → PluginResult),
      InvokePre cm f =
        (((preResultsOf cm f).take (visitLen (preResultsOf cm f))).foldl max Continue,
          (preIdsOf cm).take (visitLen (preResultsOf cm f)))) ∧
    InvokePre mgrChanged idInvoke = (Changed, [0, 1, 2]) ∧
    InvokePre mgrHandled idInvoke = (Handled, [0, 1]) ∧
    InvokePre mgrStop idInvoke = (Stop, [0]) := by
  refine ⟨?_, by decide, by decide, by decide⟩
  intro T inst cm f
  unfold InvokePre preResultsOf preIdsOf
  exact invokePreAux_eq cm.listeners f cm.order Continue (by decide)

/-- C6 (amended): for every call sequence with at most 2^31 Add calls, the
IDs returned by the Add calls are exactly 0, 1, 2, … in call order — strictly
increasing, starting at 0, with the n-th Add returning n-1 — so an ID freed by
Remove is never returned by a later Add.  (At the 2^31+1-st Add the int32
counter wraps to a negative value; see the counterexample.) -/
theorem C6_ids_monotonic (T : Type) (ops : List (Op T)) (s2 : ListenerManager T)
    (ids : List ListenerID) (hcount : countAdds ops ≤ 2 ^ 31)
    (hrun : runOpsIds (NewListener T) ops = some (s2, ids)) :
    ids = (List.range' 0 (countAdds ops)).map (fun j : Nat => ((j : Nat) : Int)) ∧
    List.Chain' (fun a b : ListenerID => a < b) ids := by
  have h := runOpsIds_ids ops (NewListener T) 0
    (by exact (by decide : (0 : Int) = toInt32 ((0 : Nat) : Int))) (by omega) s2 ids hrun
  refine ⟨h, ?_⟩
  rw [h]
  exact chain'_lt_range'_cast 0 (countAdds ops)

/-- C6 witness: Add; Add; Remove(0); Add returns IDs 0, 1, 2 in order. -/
theorem C6_witness :
    countAdds c6ops ≤ 2 ^ 31 ∧
    (([0, 1, 2] : List ListenerID) =
        (List.range' 0 (countAdds c6ops)).map (fun j : Nat => ((j : Nat) : Int)) ∧
      List.Chain' (fun a b : ListenerID => a < b) ([0, 1, 2] : List ListenerID)) :=
  ⟨by decide, C6_ids_monotonic Unit c6ops c3state [0, 1, 2] (by decide) (by decide)⟩

/-- C6 counterexample: after 2^31 Adds the next Add returns the wrapped value
-2^31 rather than 2^31, so the returned IDs (the 2^31-th is 2^31-1, the
2^31+1-st is -2^31) are not strictly increasing, refuting the claim as stated
over all sequences. -/
theorem C6_counterexample :
    runOpsIds (NewListener Unit) (List.replicate (2 ^ 31 + 1) (Op.add () Pre)) =
      some (addN () Pre (2 ^ 31 + 1) (NewListener Unit), idsWrap) ∧
    idsWrap.getD (2 ^ 31 - 1) 0 = 2 ^ 31 - 1 ∧
    idsWrap.getD (2 ^ 31) 0 = -(2 ^ 31) ∧
    ¬ List.Chain' (fun a b : ListenerID => a < b) idsWrap := by
  refine ⟨?_, ?_, ?_, not_chain'_wrap⟩
  · have h := runOpsIds_replicate () Pre (2 ^ 31 + 1) (NewListener Unit)
    rw [show (NewListener Unit).id = (0 : Int) from rfl, idSeq_fresh] at h
    exact h
  · show ((List.range' 0 (2 ^ 31 + 1)).map natToID).getD (2 ^ 31 - 1) 0 = 2 ^ 31 - 1
    rw [getD_map_range'_natToID (by omega)]
    unfold natToID toInt32
    decide
  · show ((List.range' 0 (2 ^ 31 + 1)).map natToID).getD (2 ^ 31) 0 = -(2 ^ 31)
    rw [getD_map_range'_natToID (by omega)]
    unfold natToID toInt32
    decide

/-- C7: for managers built by Add calls only (any interleaving of modes), the
order sequence lists the returned IDs in call order; `InvokePost` visits
exactly the Post-mode entries in that order, and `InvokePre` visits a prefix
of the Pre-mode entries in that order — all of them whenever no result reaches
`Handled` — so both passes visit the listeners of their mode in exactly the
order the listeners were added. -/
theorem C7_order_preservation (T : Type) [Inhabited T] (ops : List (Op T))
    (hadds : ∀ o ∈ ops, o.isAdd = true) (s : ListenerManager T)
    (ids : List ListenerID) (hrun : runOpsIds (NewListener T) ops = some (s, ids))
    (f : T → PluginResult) :
    s.order = ids ∧
    InvokePost s = postFilter s.listeners ids ∧
    (InvokePre s f).2 = (preFilter s.listeners ids).take
      (visitLen (preResults s.listeners f ids)) ∧
    ((∀ r ∈ preResults s.listeners f ids, r < Handled) →
      (InvokePre s f).2 = preFilter s.listeners ids) := by
  have horder : s.order = ids := by
    have h := runOpsIds_adds_order ops hadds (NewListener T) s ids hrun
    simpa [NewListener] using h
  refine ⟨horder, ?_, ?_, ?_⟩
  · show invokePostAux s.listeners s.order = _
    rw [horder]
    exact invokePostAux_eq_filter s.listeners ids
  · show (invokePreAux s.listeners f s.order Continue).2 = _
    rw [horder, invokePreAux_eq s.listeners f ids Continue (by decide)]
  · intro hall
    show (invokePreAux s.listeners f s.order Continue).2 = _
    rw [horder, invokePreAux_eq s.listeners f ids Continue (by decide)]
    show (preFilter s.listeners ids).take (visitLen (preResults s.listeners f ids)) = _
    rw [visitLen_of_all_lt hall]
    rw [show (preResults s.listeners f ids).length = (preFilter s.listeners ids).length
      from List.length_map _ _]
    exact List.take_length _

/-- C7 witness: three Adds interleaving Pre and Post modes. -/
theorem C7_witness :
    (∀ o ∈ c7ops, o.isAdd = true) ∧
    (c7state.order = [0, 1, 2] ∧
      InvokePost c7state = postFilter c7state.listeners [0, 1, 2] ∧
      (InvokePre c7state c7f).2 = (preFilter c7state.listeners [0, 1, 2]).take
        (visitLen (preResults c7state.listeners c7f [0, 1, 2])) ∧
      ((∀ r ∈ preResults c7state.listeners c7f [0, 1, 2], r < Handled) →
        (InvokePre c7state c7f).2 = preFilter c7state.listeners [0, 1, 2])) :=
  ⟨by decide,
    C7_order_preservation Int c7ops (by decide) c7state [0, 1, 2] (by decide) c7f⟩

/-- C8: a listener stored with mode Post is never in the trace of `InvokePre`,
and a listener stored with mode Pre is never in the trace of `InvokePost`,
for every manager state and invoke function. -/
theorem C8_phase_isolation (T : Type) [Inhabited T] (cm : ListenerManager T)
    (f : T → PluginResult) (i : ListenerID) :
    ((mapGet cm.listeners i).mode = Post → i ∉ (InvokePre cm f).2) ∧
    ((mapGet cm.listeners i).mode = Pre → i ∉ InvokePost cm) := by
  constructor
  · intro hmode hmem
    have hmem1 : i ∈ (invokePreAux cm.listeners f cm.order Continue).2 := hmem
    rw [invokePreAux_eq cm.listeners f cm.order Continue (by decide)] at hmem1
    have hmem2 : i ∈ preFilter cm.listeners cm.order :=
      List.take_subset _ _ hmem1
    have hmode2 := (List.mem_filter.mp hmem2).2
    simp only [decide_eq_true_eq] at hmode2
    rw [hmode] at hmode2
    exact absurd hmode2 (by decide)
  · intro hmode hmem
    have hmem1 : i ∈ invokePostAux cm.listeners cm.order := hmem
    rw [invokePostAux_eq_filter] at hmem1
    have hmode2 := (List.mem_filter.mp hmem1).2
    simp only [decide_eq_true_eq] at hmode2
    rw [hmode] at hmode2
    exact absurd hmode2 (by decide)

/-- C8 witness: a manager holding one Pre and one Post listener. -/
theorem C8_witness :
    ((mapGet c8state.listeners 1).mode = Post ∧
      (1 : ListenerID) ∉ (InvokePre c8state c8f).2) ∧
    ((mapGet c8state.listeners 0).mode = Pre ∧
      (0 : ListenerID) ∉ InvokePost c8state) :=
  ⟨⟨by decide, (C8_phase_isolation Int c8state c8f 1).1 (by decide)⟩,
    ⟨by decide, (C8_phase_isolation Int c8state c8f 0).2 (by decide)⟩⟩

/-- C9: `InvokePost` invokes exactly the Post-mode entries of the order
sequence, in registration order, with no early exit; its behaviour does not
depend on any result value (the instrumented trace is a function of the state
alone — the Go `invokeFunc` returns nothing).  Every Post-mode entry present
at the start of the call is invoked. -/
theorem C9_invokePost_all (T : Type) [Inhabited T] (cm : ListenerManager T) :
    InvokePost cm = postFilter cm.listeners cm.order ∧
    ∀ i ∈ cm.order, (mapGet cm.listeners i).mode = Post → i ∈ InvokePost cm := by
  refine ⟨invokePostAux_eq_filter cm.listeners cm.order, ?_⟩
  intro i hi hmode
  show i ∈ invokePostAux cm.listeners cm.order
  rw [invokePostAux_eq_filter]
  exact List.mem_filter.mpr ⟨hi, by simp [hmode]⟩

/-- C9 witness: three Post listeners, all invoked. -/
theorem C9_witness :
    InvokePost c9state = postFilter c9state.listeners c9state.order ∧
    ((1 : ListenerID) ∈ c9state.order ∧ (mapGet c9state.listeners 1).mode = Post ∧
      (1 : ListenerID) ∈ InvokePost c9state) :=
  ⟨(C9_invokePost_all Int c9state).1,
    ⟨by decide, by decide, (C9_invokePost_all Int c9state).2 1 (by decide) (by decide)⟩⟩

/-- C10: on a manager containing no listeners, `InvokePre` returns `Continue`
and invokes nothing, and `InvokePost` invokes nothing. -/
theorem C10_empty_manager (T : Type) [Inhabited T] (cm : ListenerManager T)
    (f : T → PluginResult) (_hl : cm.listeners = []) (ho : cm.order = []) :
    InvokePre cm f = (Continue, []) ∧ InvokePost cm = [] := by
  unfold InvokePre InvokePost
  rw [ho]
  exact ⟨rfl, rfl⟩

/-- C10 witness: the fresh manager. -/
theorem C10_witness :
    (NewListener Unit).listeners = [] ∧ (NewListener Unit).order = [] ∧
    (InvokePre (NewListener Unit) c10f = (Continue, []) ∧
      InvokePost (NewListener Unit) = []) :=
  ⟨rfl, rfl, C10_empty_manager Unit (NewListener Unit) c10f rfl rfl⟩

end Listeners
